import Mathlib

/-!
Verification of the DeepDetect forensics pipeline
(src/components/ForensicsOverlay.js) against its specification.

The analysis core is embedded shallowly over exact rational arithmetic:
a grayscale buffer is a function from pixel coordinates to a rational
sample, a score map is a pair of grid dimensions together with a value
function, and every detector, the normalizer, the fusion step and the
percentile threshold are translated line by line from the source.
External imaging capabilities (per-region mean, absolute difference,
denoising) are modelled by their declared contracts from section 6 of
the spec: per-region mean is sum divided by pixel count, absolute
difference is pointwise, the denoiser is an abstract function.
-/

namespace DeepDetect

/-- Single-channel pixel buffer: width, height, and a sample function.
Samples are meaningful at coordinates x < w, y < h; the analysis code
only reads inside those bounds. -/
structure Image where
  w : Nat
  h : Nat
  pix : Nat → Nat → ℚ

/-- Uniform constant-intensity buffer. -/
def constImage (w h : Nat) (c : ℚ) : Image :=
  ⟨w, h, fun _ _ => c⟩

/-- Row count of the block grid, from line 54:
byCount = Math.ceil(h / blockSize). -/
def byCount (h blockSize : Nat) : Nat :=
  ⌈(h : ℚ) / (blockSize : ℚ)⌉₊

/-- Column count of the block grid, from line 55:
bxCount = Math.ceil(w / blockSize). -/
def bxCount (w blockSize : Nat) : Nat :=
  ⌈(w : ℚ) / (blockSize : ℚ)⌉₊

/-- Clipped block height, from line 64: hBlk = Math.min(blockSize, h - y)
with y = by * blockSize. -/
def hBlkOf (h blockSize i : Nat) : Nat :=
  min blockSize (h - i * blockSize)

/-- Clipped block width, from line 65: wBlk = Math.min(blockSize, w - x)
with x = bx * blockSize. -/
def wBlkOf (w blockSize j : Nat) : Nat :=
  min blockSize (w - j * blockSize)

/-- Sum of a sample function over the rectangle of size wBlk × hBlk whose
top-left corner is (x, y). -/
def regionSum (f : Nat → Nat → ℚ) (x y wBlk hBlk : Nat) : ℚ :=
  ∑ yy ∈ Finset.range hBlk, ∑ xx ∈ Finset.range wBlk, f (x + xx) (y + yy)

/-- Mean of a sample function over a rectangular region: the contract of
the external per-region mean capability (cv.mean over a ROI). -/
def regionMean (f : Nat → Nat → ℚ) (x y wBlk hBlk : Nat) : ℚ :=
  regionSum f x y wBlk hBlk / ((wBlk * hBlk : Nat) : ℚ)

/-- Per-block variance statistic, from lines 62 to 71: the block region is
clipped to the image, mean and mean-of-squares are taken over the clipped
region, and the score is meanSq - mean * mean. -/
def blockVarStat (gray : Image) (blockSize i j : Nat) : ℚ :=
  let y := i * blockSize
  let x := j * blockSize
  let hBlk := min blockSize (gray.h - y)
  let wBlk := min blockSize (gray.w - x)
  let mean := regionMean gray.pix x y wBlk hBlk
  let meanSq := regionMean (fun a b => gray.pix a b * gray.pix a b) x y wBlk hBlk
  meanSq - mean * mean

/-- Score map: a byCount × bxCount grid of rational scores, represented by
its dimensions and a value function (row index first). -/
structure ScoreMap where
  rows : Nat
  cols : Nat
  val : Nat → Nat → ℚ

/-- Row-major flattening of a score map, the model of the flat() call on
the nested JavaScript arrays. -/
def ScoreMap.flatten (m : ScoreMap) : List ℚ :=
  (List.range m.rows).flatMap (fun i => (List.range m.cols).map (fun j => m.val i j))

/-- Variance detector map, from lines 59 to 74. -/
def varMapOf (gray : Image) (blockSize : Nat) : ScoreMap :=
  ⟨byCount gray.h blockSize, bxCount gray.w blockSize,
    fun i j => blockVarStat gray blockSize i j⟩

/-- Fixed compression sub-cell size, from line 78: gridSize = 8. -/
def gridSize : Nat := 8

/-- Offsets visited by the loop on line 82: 0, 8, 16, ... below blockSize. -/
def cellOffsets (blockSize : Nat) : List Nat :=
  (List.range ((blockSize + gridSize - 1) / gridSize)).map (fun k => k * gridSize)

/-- Mean absolute difference across a vertical sub-cell boundary, from
lines 89 to 95: the last column of the cell at x0 against the single
column at x0 + gridSize, averaged over the gridSize rows. -/
def vBoundaryDiff (gray : Image) (x0 y0 : Nat) : ℚ :=
  (∑ k ∈ Finset.range gridSize,
      |gray.pix (x0 + (gridSize - 1)) (y0 + k) - gray.pix (x0 + gridSize) (y0 + k)|)
    / (gridSize : ℚ)

/-- Mean absolute difference across a horizontal sub-cell boundary, from
lines 98 to 104. -/
def hBoundaryDiff (gray : Image) (x0 y0 : Nat) : ℚ :=
  (∑ k ∈ Finset.range gridSize,
      |gray.pix (x0 + k) (y0 + (gridSize - 1)) - gray.pix (x0 + k) (y0 + gridSize)|)
    / (gridSize : ℚ)

/-- Boundary differences collected inside one block, from lines 81 to 108:
sub-cells whose 8 × 8 extent leaves the image are skipped (line 86), a
vertical boundary is recorded when x0 + gridSize < w and a horizontal one
when y0 + gridSize < h. -/
def blockBoundaryDiffs (gray : Image) (blockSize i j : Nat) : List ℚ :=
  (cellOffsets blockSize).flatMap (fun yOff =>
    (cellOffsets blockSize).flatMap (fun xOff =>
      let y0 := i * blockSize + yOff
      let x0 := j * blockSize + xOff
      if y0 + gridSize > gray.h ∨ x0 + gridSize > gray.w then []
      else
        (if x0 + gridSize < gray.w then [vBoundaryDiff gray x0 y0] else []) ++
        (if y0 + gridSize < gray.h then [hBoundaryDiff gray x0 y0] else [])))

/-- Grid-artifact score of one block, from line 109: the mean of the
collected boundary differences, or 0 when none were collected. -/
def gridScore (gray : Image) (blockSize i j : Nat) : ℚ :=
  let diffs := blockBoundaryDiffs gray blockSize i j
  if diffs.length = 0 then 0 else diffs.sum / (diffs.length : ℚ)

/-- Grid-artifact detector map, from lines 77 to 111. -/
def gridMapOf (gray : Image) (blockSize : Nat) : ScoreMap :=
  ⟨byCount gray.h blockSize, bxCount gray.w blockSize,
    fun i j => gridScore gray blockSize i j⟩

/-- Border-handling mode of the blur fallback; the source passes
cv.BORDER_DEFAULT on line 10. -/
inductive BorderType
  | borderDefault

/-- Abstract imaging back-end: the non-local-means denoiser is an optional
capability (the source probes it with a typeof check on line 5), the blur
is always available. -/
structure Cv where
  fastNlMeansDenoising : Option ((Nat → Nat → ℚ) → ℚ → Nat → Nat → (Nat → Nat → ℚ))
  gaussianBlur : (Nat → Nat → ℚ) → Nat × Nat → ℚ → ℚ → BorderType → (Nat → Nat → ℚ)

/-- Result of the denoise helper together with the warnings it printed. -/
structure DenoiseResult where
  out : Nat → Nat → ℚ
  warnings : List String

/-- The denoise helper, from lines 3 to 13: use fastNlMeansDenoising with
parameters 10, 7, 21 when the capability exists, otherwise warn and fall
back to a 3 × 3 blur with sigmas 0 and default border handling. -/
def denoise (cv : Cv) (gray : Nat → Nat → ℚ) : DenoiseResult :=
  match cv.fastNlMeansDenoising with
  | some f => { out := f gray 10 7 21, warnings := [] }
  | none =>
      { out := cv.gaussianBlur gray (3, 3) 0 0 BorderType.borderDefault
        warnings := ["[ForensicsOverlay] fastNlMeansDenoising unavailable, using GaussianBlur"] }

/-- Residual buffer, from line 116: residual = gray - denoised, pointwise
(the contract of the external subtract capability). -/
def residualImage (gray : Image) (denoised : Nat → Nat → ℚ) : Image :=
  ⟨gray.w, gray.h, fun x y => gray.pix x y - denoised x y⟩

/-- Per-block residual-noise statistic, from lines 118 to 131: the same
clip, mean and mean-of-squares computation as the variance detector,
applied to the residual buffer. -/
def prnuBlockStat (gray : Image) (denoised : Nat → Nat → ℚ) (blockSize i j : Nat) : ℚ :=
  let residual := residualImage gray denoised
  let y := i * blockSize
  let x := j * blockSize
  let hBlk := min blockSize (residual.h - y)
  let wBlk := min blockSize (residual.w - x)
  let mean := regionMean residual.pix x y wBlk hBlk
  let meanSq := regionMean (fun a b => residual.pix a b * residual.pix a b) x y wBlk hBlk
  meanSq - mean * mean

/-- Residual-noise detector map, from lines 113 to 132. -/
def prnuMapOf (gray : Image) (denoised : Nat → Nat → ℚ) (blockSize : Nat) : ScoreMap :=
  ⟨byCount gray.h blockSize, bxCount gray.w blockSize,
    fun i j => prnuBlockStat gray denoised blockSize i j⟩

/-- Per-block ELA score, from lines 149 to 159: sum of the absolute
first-channel differences over the pixels of the block that lie inside
the image (the continue on line 154 skips the rest), divided by the
nominal blockSize * blockSize. -/
def elaBlockScore (w h : Nat) (origR newR : Nat → Nat → ℚ) (blockSize i j : Nat) : ℚ :=
  (∑ yy ∈ Finset.range blockSize, ∑ xx ∈ Finset.range blockSize,
      (if i * blockSize + yy ≥ h ∨ j * blockSize + xx ≥ w then 0
       else |origR (j * blockSize + xx) (i * blockSize + yy)
              - newR (j * blockSize + xx) (i * blockSize + yy)|))
    / ((blockSize * blockSize : Nat) : ℚ)

/-- ELA detector map, from lines 146 to 161; origR and newR are the red
channels of the original and recompressed RGBA buffers. -/
def elaMapOf (w h : Nat) (origR newR : Nat → Nat → ℚ) (blockSize : Nat) : ScoreMap :=
  ⟨byCount h blockSize, bxCount w blockSize,
    fun i j => elaBlockScore w h origR newR blockSize i j⟩

/-- Epsilon guarding the normalization denominator, from line 168: 1e-8. -/
def eps : ℚ := 1 / 100000000

/-- Model of Math.min spread over a nonempty list. -/
def listMin : List ℚ → ℚ
  | [] => 0
  | x :: xs => xs.foldl min x

/-- Model of Math.max spread over a nonempty list. -/
def listMax : List ℚ → ℚ
  | [] => 0
  | x :: xs => xs.foldl max x

/-- Min-max normalization of a score map, from lines 164 to 169:
every value v becomes (v - min) / (max - min + 1e-8), with min and max
taken over the flattened map. -/
def normalizeMap (m : ScoreMap) : ScoreMap :=
  let mn := listMin m.flatten
  let mx := listMax m.flatten
  ⟨m.rows, m.cols, fun i j => (m.val i j - mn) / (mx - mn + eps)⟩

/-- Per-map inversion v becomes 1 - v, from lines 171 to 173. -/
def invertMap (m : ScoreMap) : ScoreMap :=
  ⟨m.rows, m.cols, fun i j => 1 - m.val i j⟩

/-- Fusion, from lines 175 to 177: the unweighted average of the four
maps, the output taking its shape from the first. -/
def fuse (v g p e : ScoreMap) : ScoreMap :=
  ⟨v.rows, v.cols, fun i j => (v.val i j + g.val i j + p.val i j + e.val i j) / 4⟩

/-- The composite map of one full run, from lines 171 to 177: the three
inverted normalized maps fused with the non-inverted normalized ELA map. -/
def compositeOf (gray : Image) (denoised : Nat → Nat → ℚ)
    (origR newR : Nat → Nat → ℚ) (blockSize : Nat) : ScoreMap :=
  fuse (invertMap (normalizeMap (varMapOf gray blockSize)))
       (invertMap (normalizeMap (gridMapOf gray blockSize)))
       (invertMap (normalizeMap (prnuMapOf gray denoised blockSize)))
       (normalizeMap (elaMapOf gray.w gray.h origR newR blockSize))

/-- Ascending sort, the model of sort((a, b) => a - b) on line 179. -/
def sortAsc (l : List ℚ) : List ℚ :=
  List.insertionSort (fun a b => a ≤ b) l

/-- Nearest-rank index, from line 180:
Math.floor(flatC.length * thresholdPercent / 100). -/
def thrIdx (n : Nat) (tp : ℚ) : Nat :=
  ⌊(n : ℚ) * tp / 100⌋₊

/-- Threshold selection, from lines 179 to 180: the element of the sorted
flattened composite at the nearest-rank index; none models the undefined
value JavaScript yields on an out-of-range index. -/
def thresholdOf (m : ScoreMap) (tp : ℚ) : Option ℚ :=
  let flatC := sortAsc m.flatten
  flatC.get? (thrIdx flatC.length tp)

/-- Highlight decision for one block, from line 185: score >= thr.
A comparison of a number against undefined is false in JavaScript, hence
the none branch. -/
def suspiciousAt (m : ScoreMap) (tp : ℚ) (i j : Nat) : Bool :=
  match thresholdOf m tp with
  | some t => decide (m.val i j ≥ t)
  | none => false

/-- The boolean highlight mask, from lines 184 to 188. -/
def maskOf (m : ScoreMap) (tp : ℚ) : List (List Bool) :=
  (List.range m.rows).map (fun i => (List.range m.cols).map (fun j => suspiciousAt m tp i j))

/-- One full analysis run, from runAnalysis on lines 33 to 195: denoise
with capability fallback, build the four maps, normalize, fuse and
threshold. -/
def runMask (cv : Cv) (gray : Image) (origR newR : Nat → Nat → ℚ)
    (blockSize : Nat) (tp : ℚ) : List (List Bool) :=
  maskOf (compositeOf gray (denoise cv gray.pix).out origR newR blockSize) tp

/-- Spec-side enumeration of the boundary differences of one sub-cell,
written from section 4.3 of the spec: a right-edge boundary is recorded
when the single-pixel-wide boundary line (the gridSize rows of columns
x0 + gridSize - 1 and x0 + gridSize) lies fully inside the image, and
symmetrically for a bottom-edge boundary. -/
def specCellDiffs (gray : Image) (x0 y0 : Nat) : List ℚ :=
  (if y0 + gridSize ≤ gray.h ∧ x0 + gridSize < gray.w then [vBoundaryDiff gray x0 y0] else []) ++
  (if x0 + gridSize ≤ gray.w ∧ y0 + gridSize < gray.h then [hBoundaryDiff gray x0 y0] else [])

/-- Spec-side list of all boundary differences falling within one block. -/
def specBoundaryDiffs (gray : Image) (blockSize i j : Nat) : List ℚ :=
  (cellOffsets blockSize).flatMap (fun yOff =>
    (cellOffsets blockSize).flatMap (fun xOff =>
      specCellDiffs gray (j * blockSize + xOff) (i * blockSize + yOff)))

/-- Spec-side grid-artifact score, from section 4.3: the arithmetic mean
of all boundary differences within the block, 0 when there are none. -/
def specGridScore (gray : Image) (blockSize i j : Nat) : ℚ :=
  let diffs := specBoundaryDiffs gray blockSize i j
  if diffs = [] then 0 else diffs.sum / (diffs.length : ℚ)

/-- Events observable by the overlay component: the source prop changes
(the effect on lines 32 to 206 re-runs and starts the analysis for a new
run), or the asynchronous recompression round trip of some earlier run
resolves (the img2.onload callback on lines 143 to 193 fires). -/
inductive OverlayEvent
  | newSrc (runId : Nat)
  | roundTripDone (runId : Nat)

/-- Observable component state: which run is current (whose src the
component was last given), the run whose overlay rectangles are drawn on
the shared canvas, and the loading flag. -/
structure OverlayState where
  currentRun : Nat
  canvasRun : Option Nat
  loading : Bool

/-- Step function read off the source. A src change re-runs the effect
and starts a new analysis (lines 32 to 206); the component stores no
run or generation token. When a round trip resolves, the img2.onload
callback on lines 143 to 193 draws the overlay of its own run onto the
canvas and calls setLoading(false) unconditionally: no staleness check
guards either write. -/
def overlayStep (s : OverlayState) : OverlayEvent → OverlayState
  | OverlayEvent.newSrc r => { s with currentRun := r }
  | OverlayEvent.roundTripDone r => { s with canvasRun := some r, loading := false }

/-- State after a sequence of events, starting from the mount state
(loading is initialized to true on line 30). -/
def overlayRun (evs : List OverlayEvent) : OverlayState :=
  evs.foldl overlayStep ⟨0, none, true⟩

/-- The worked composite map of the spec, section 8: the ten values
0.1 to 1.0, here laid out on a 2 × 5 grid (row-major). -/
def exampleComposite : ScoreMap :=
  ⟨2, 5, fun i j => ((5 * i + j + 1 : Nat) : ℚ) / 10⟩

theorem mem_flatten_iff {m : ScoreMap} {x : ℚ} :
    x ∈ m.flatten ↔ ∃ i, i < m.rows ∧ ∃ j, j < m.cols ∧ x = m.val i j := by
  simp only [ScoreMap.flatten, List.mem_flatMap, List.mem_map, List.mem_range]
  constructor
  · rintro ⟨i, hi, j, hj, rfl⟩
    exact ⟨i, hi, j, hj, rfl⟩
  · rintro ⟨i, hi, j, hj, rfl⟩
    exact ⟨i, hi, j, hj, rfl⟩

theorem val_mem_flatten {m : ScoreMap} {i j : Nat}
    (hi : i < m.rows) (hj : j < m.cols) : m.val i j ∈ m.flatten :=
  mem_flatten_iff.mpr ⟨i, hi, j, hj, rfl⟩

theorem foldl_min_le_init {xs : List ℚ} {b : ℚ} : xs.foldl min b ≤ b := by
  induction xs generalizing b with
  | nil => exact le_refl _
  | cons x t ih => exact le_trans ih (min_le_left _ _)

theorem init_le_foldl_max {xs : List ℚ} {b : ℚ} : b ≤ xs.foldl max b := by
  induction xs generalizing b with
  | nil => exact le_refl _
  | cons x t ih => exact le_trans (le_max_left _ _) ih

theorem foldl_min_le {xs : List ℚ} {b a : ℚ} (ha : a = b ∨ a ∈ xs) :
    xs.foldl min b ≤ a := by
  induction xs generalizing b with
  | nil =>
      rcases ha with rfl | h
      · exact le_refl _
      · cases h
  | cons x t ih =>
      simp only [List.foldl_cons]
      rcases ha with rfl | hx
      · exact le_trans foldl_min_le_init (min_le_left _ _)
      · rcases List.mem_cons.mp hx with rfl | hmem
        · exact le_trans foldl_min_le_init (min_le_right _ _)
        · exact ih (Or.inr hmem)

theorem le_foldl_max {xs : List ℚ} {b a : ℚ} (ha : a = b ∨ a ∈ xs) :
    a ≤ xs.foldl max b := by
  induction xs generalizing b with
  | nil =>
      rcases ha with rfl | h
      · exact le_refl _
      · cases h
  | cons x t ih =>
      simp only [List.foldl_cons]
      rcases ha with rfl | hx
      · exact le_trans (le_max_left _ _) init_le_foldl_max
      · rcases List.mem_cons.mp hx with rfl | hmem
        · exact le_trans (le_max_right _ _) init_le_foldl_max
        · exact ih (Or.inr hmem)

theorem listMin_le {l : List ℚ} {a : ℚ} (ha : a ∈ l) : listMin l ≤ a := by
  cases l with
  | nil => cases ha
  | cons x xs =>
      rcases List.mem_cons.mp ha with rfl | hmem
      · exact foldl_min_le (Or.inl rfl)
      · exact foldl_min_le (Or.inr hmem)

theorem le_listMax {l : List ℚ} {a : ℚ} (ha : a ∈ l) : a ≤ listMax l := by
  cases l with
  | nil => cases ha
  | cons x xs =>
      rcases List.mem_cons.mp ha with rfl | hmem
      · exact le_foldl_max (Or.inl rfl)
      · exact le_foldl_max (Or.inr hmem)

theorem foldl_const_eq {q : ℚ} {op : ℚ → ℚ → ℚ} (hop : op q q = q) {xs : List ℚ} {b : ℚ}
    (hxs : ∀ x ∈ xs, x = q) (hb : b = q) : xs.foldl op b = q := by
  induction xs with
  | nil => exact hb
  | cons x t ih =>
      have hx : x = q := hxs x (List.mem_cons_self x t)
      have : ∀ y ∈ t, y = q := fun y hy => hxs y (List.mem_cons_of_mem _ hy)
      subst hx; subst hb
      simpa [hop] using ih this

theorem listMin_const {l : List ℚ} {q : ℚ} (hl : l ≠ []) (hq : ∀ x ∈ l, x = q) :
    listMin l = q := by
  cases l with
  | nil => exact absurd rfl hl
  | cons x xs =>
      have hx : x = q := hq x (List.mem_cons_self x xs)
      exact foldl_const_eq (min_self q) (fun y hy => hq y (List.mem_cons_of_mem _ hy)) hx

theorem listMax_const {l : List ℚ} {q : ℚ} (hl : l ≠ []) (hq : ∀ x ∈ l, x = q) :
    listMax l = q := by
  cases l with
  | nil => exact absurd rfl hl
  | cons x xs =>
      have hx : x = q := hq x (List.mem_cons_self x xs)
      exact foldl_const_eq (max_self q) (fun y hy => hq y (List.mem_cons_of_mem _ hy)) hx

theorem lt_byCount_iff {h bs i : Nat} (hbs : 0 < bs) :
    i < byCount h bs ↔ i * bs < h := by
  rw [byCount, Nat.lt_ceil, lt_div_iff (by exact_mod_cast hbs : (0 : ℚ) < (bs : ℚ))]
  exact_mod_cast Iff.rfl

theorem lt_bxCount_iff {w bs j : Nat} (hbs : 0 < bs) :
    j < bxCount w bs ↔ j * bs < w := by
  rw [bxCount, Nat.lt_ceil, lt_div_iff (by exact_mod_cast hbs : (0 : ℚ) < (bs : ℚ))]
  exact_mod_cast Iff.rfl

theorem sum_range_guard (n m x : Nat) (f : Nat → ℚ) :
    ∑ k ∈ Finset.range n, (if x + k < m then f k else 0)
      = ∑ k ∈ Finset.range (min n (m - x)), f k := by
  have h1 : (Finset.range n).filter (fun t => x + t < m) = Finset.range (min n (m - x)) := by
    ext t
    simp only [Finset.mem_filter, Finset.mem_range, Nat.lt_min]
    omega
  rw [← h1, Finset.sum_filter]

theorem sum_sq_dev (s : Finset (Nat × Nat)) (F : Nat × Nat → ℚ) (c : ℚ) :
    ∑ p ∈ s, (F p - c) * (F p - c)
      = ∑ p ∈ s, F p * F p - 2 * c * ∑ p ∈ s, F p + (s.card : ℚ) * (c * c) :=
  calc ∑ p ∈ s, (F p - c) * (F p - c)
      = ∑ p ∈ s, (F p * F p - 2 * c * F p + c * c) :=
        Finset.sum_congr rfl (fun p _ => by ring)
    _ = (∑ p ∈ s, (F p * F p - 2 * c * F p)) + ∑ _p ∈ s, c * c :=
        Finset.sum_add_distrib
    _ = (∑ p ∈ s, F p * F p - ∑ p ∈ s, 2 * c * F p) + ∑ _p ∈ s, c * c := by
        rw [Finset.sum_sub_distrib]
    _ = ∑ p ∈ s, F p * F p - 2 * c * ∑ p ∈ s, F p + (s.card : ℚ) * (c * c) := by
        rw [← Finset.mul_sum, Finset.sum_const, nsmul_eq_mul]

theorem regionSum_sq_dev (f : Nat → Nat → ℚ) (c : ℚ) (x y wB hB : Nat) :
    regionSum (fun a b => (f a b - c) * (f a b - c)) x y wB hB
      = regionSum (fun a b => f a b * f a b) x y wB hB
        - 2 * c * regionSum f x y wB hB + ((wB * hB : Nat) : ℚ) * (c * c) := by
  have hc : ((wB * hB : Nat) : ℚ)
      = (((Finset.range hB ×ˢ Finset.range wB).card : Nat) : ℚ) := by
    rw [Finset.card_product, Finset.card_range, Finset.card_range]
    push_cast
    ring
  unfold regionSum
  rw [hc, ← Finset.sum_product', ← Finset.sum_product', ← Finset.sum_product']
  exact sum_sq_dev (Finset.range hB ×ˢ Finset.range wB) (fun p => f (x + p.2) (y + p.1)) c

/-- C2: for every image width w, height h and positive blockSize, the
block grid has byCount = ceil(h / blockSize) rows and
bxCount = ceil(w / blockSize) columns; every block of the grid clips to a
nonempty region lying inside the image bounds (trailing partial rows and
columns are represented as smaller blocks, not dropped); for a 100 × 50
image with blockSize 32, byCount = 2 and bxCount = 4. -/
theorem grid_dimensions_and_clipping (w h blockSize : Nat) (hbs : 0 < blockSize) :
    ((byCount h blockSize : ℤ) = ⌈(h : ℚ) / (blockSize : ℚ)⌉
      ∧ (bxCount w blockSize : ℤ) = ⌈(w : ℚ) / (blockSize : ℚ)⌉)
    ∧ (∀ i, i < byCount h blockSize →
        0 < hBlkOf h blockSize i ∧ i * blockSize + hBlkOf h blockSize i ≤ h)
    ∧ (∀ j, j < bxCount w blockSize →
        0 < wBlkOf w blockSize j ∧ j * blockSize + wBlkOf w blockSize j ≤ w)
    ∧ byCount 50 32 = 2 ∧ bxCount 100 32 = 4 := by
  refine ⟨⟨?_, ?_⟩, ?_, ?_, ?_, ?_⟩
  · exact Int.natCast_ceil_eq_ceil (by positivity)
  · exact Int.natCast_ceil_eq_ceil (by positivity)
  · intro i hi
    have hlt : i * blockSize < h := (lt_byCount_iff hbs).mp hi
    unfold hBlkOf
    omega
  · intro j hj
    have hlt : j * blockSize < w := (lt_bxCount_iff hbs).mp hj
    unfold wBlkOf
    omega
  · unfold byCount
    rw [Nat.ceil_eq_iff (by norm_num)]
    norm_num
  · unfold bxCount
    rw [Nat.ceil_eq_iff (by norm_num)]
    norm_num

/-- Closed witness for the grid-dimension claim at a 100 × 50 image with
blockSize 32. -/
theorem grid_dimensions_and_clipping_witness :
    0 < 32 ∧ (byCount 50 32 = 2 ∧ bxCount 100 32 = 4) :=
  ⟨by decide, (grid_dimensions_and_clipping 100 50 32 (by decide)).2.2.2⟩

theorem meanSq_sub_mean_sq (f : Nat → Nat → ℚ) (x y wB hB : Nat)
    (hn : ((wB * hB : Nat) : ℚ) ≠ 0) :
    regionMean (fun a b => f a b * f a b) x y wB hB
        - regionMean f x y wB hB * regionMean f x y wB hB
      = regionSum
          (fun a b => (f a b - regionMean f x y wB hB) * (f a b - regionMean f x y wB hB))
          x y wB hB / ((wB * hB : Nat) : ℚ) := by
  rw [regionSum_sq_dev f (regionMean f x y wB hB) x y wB hB]
  generalize hS1 : regionSum f x y wB hB = S1
  generalize hS2 : regionSum (fun a b => f a b * f a b) x y wB hB = S2
  unfold regionMean
  rw [hS1, hS2]
  generalize ((wB * hB : Nat) : ℚ) = n at hn ⊢
  field_simp
  ring

/-- C7: at every valid block the variance detector score is the population
variance of the luminance over the clipped region (mean of squares minus
squared mean equals the mean squared deviation), and the residual-noise
detector applies exactly the same statistic to the residual buffer
residual = original - denoised. -/
theorem variance_and_prnu_stat (gray : Image) (den : Nat → Nat → ℚ)
    (blockSize i j : Nat) (hbs : 0 < blockSize)
    (hi : i < byCount gray.h blockSize) (hj : j < bxCount gray.w blockSize) :
    ((varMapOf gray blockSize).val i j
        = regionMean (fun a b => gray.pix a b * gray.pix a b) (j * blockSize) (i * blockSize)
            (wBlkOf gray.w blockSize j) (hBlkOf gray.h blockSize i)
          - regionMean gray.pix (j * blockSize) (i * blockSize)
              (wBlkOf gray.w blockSize j) (hBlkOf gray.h blockSize i)
            * regionMean gray.pix (j * blockSize) (i * blockSize)
              (wBlkOf gray.w blockSize j) (hBlkOf gray.h blockSize i))
    ∧ (varMapOf gray blockSize).val i j
        = regionSum
            (fun a b =>
              (gray.pix a b
                  - regionMean gray.pix (j * blockSize) (i * blockSize)
                      (wBlkOf gray.w blockSize j) (hBlkOf gray.h blockSize i))
                * (gray.pix a b
                  - regionMean gray.pix (j * blockSize) (i * blockSize)
                      (wBlkOf gray.w blockSize j) (hBlkOf gray.h blockSize i)))
            (j * blockSize) (i * blockSize)
            (wBlkOf gray.w blockSize j) (hBlkOf gray.h blockSize i)
          / ((wBlkOf gray.w blockSize j * hBlkOf gray.h blockSize i : Nat) : ℚ)
    ∧ (prnuMapOf gray den blockSize).val i j
        = blockVarStat (residualImage gray den) blockSize i j
    ∧ (∀ x y, (residualImage gray den).pix x y = gray.pix x y - den x y) := by
  have hwpos : 0 < wBlkOf gray.w blockSize j := by
    have := (lt_bxCount_iff hbs).mp hj
    unfold wBlkOf
    omega
  have hhpos : 0 < hBlkOf gray.h blockSize i := by
    have := (lt_byCount_iff hbs).mp hi
    unfold hBlkOf
    omega
  have hn : (((wBlkOf gray.w blockSize j * hBlkOf gray.h blockSize i : Nat)) : ℚ) ≠ 0 := by
    rw [Nat.cast_ne_zero]
    exact Nat.mul_ne_zero (Nat.pos_iff_ne_zero.mp hwpos) (Nat.pos_iff_ne_zero.mp hhpos)
  refine ⟨rfl, ?_, rfl, fun x y => rfl⟩
  exact meanSq_sub_mean_sq gray.pix (j * blockSize) (i * blockSize)
    (wBlkOf gray.w blockSize j) (hBlkOf gray.h blockSize i) hn

/-- Closed witness for the variance and residual-noise claim on a tiny
concrete image. -/
theorem variance_and_prnu_stat_witness :
    0 < 2 ∧ 0 < byCount 3 2 ∧ 0 < bxCount 3 2 ∧
      (prnuMapOf (constImage 3 3 1) (fun _ _ => 0) 2).val 0 0
        = blockVarStat (residualImage (constImage 3 3 1) (fun _ _ => 0)) 2 0 0 := by
  have hby : byCount 3 2 = 2 := by
    unfold byCount
    rw [Nat.ceil_eq_iff (by norm_num)]
    norm_num
  have hbx : bxCount 3 2 = 2 := by
    unfold bxCount
    rw [Nat.ceil_eq_iff (by norm_num)]
    norm_num
  refine ⟨by decide, by rw [hby]; decide, by rw [hbx]; decide, ?_⟩
  exact (variance_and_prnu_stat (constImage 3 3 1) (fun _ _ => 0) 2 0 0 (by decide)
    (by show 0 < byCount 3 2; rw [hby]; decide)
    (by show 0 < bxCount 3 2; rw [hbx]; decide)).2.2.1

theorem guarded_double_sum_eq_clipped (w h blockSize : Nat) (t : Nat → Nat → ℚ) (i j : Nat) :
    (∑ yy ∈ Finset.range blockSize, ∑ xx ∈ Finset.range blockSize,
        (if i * blockSize + yy ≥ h ∨ j * blockSize + xx ≥ w then 0 else t yy xx))
      = ∑ yy ∈ Finset.range (min blockSize (h - i * blockSize)),
          ∑ xx ∈ Finset.range (min blockSize (w - j * blockSize)), t yy xx := by
  have key : ∀ yy,
      (∑ xx ∈ Finset.range blockSize,
          (if i * blockSize + yy ≥ h ∨ j * blockSize + xx ≥ w then 0 else t yy xx))
        = if i * blockSize + yy < h then
            ∑ xx ∈ Finset.range (min blockSize (w - j * blockSize)), t yy xx
          else 0 := by
    intro yy
    by_cases hy : i * blockSize + yy < h
    · rw [if_pos hy, ← sum_range_guard blockSize w (j * blockSize) (fun xx => t yy xx)]
      apply Finset.sum_congr rfl
      intro xx _
      by_cases hx : j * blockSize + xx < w
      · rw [if_pos hx, if_neg (by omega)]
      · rw [if_neg hx, if_pos (by omega)]
    · rw [if_neg hy]
      apply Finset.sum_eq_zero
      intro xx _
      rw [if_pos (by omega)]
  rw [Finset.sum_congr rfl (fun yy _ => key yy)]
  exact sum_range_guard blockSize h (i * blockSize)
    (fun yy => ∑ xx ∈ Finset.range (min blockSize (w - j * blockSize)), t yy xx)

/-- C6: every ELA block score is the sum of the absolute red-channel
differences over the clipped block region divided by the nominal
blockSize * blockSize (not the clipped pixel count), and the ELA map
enters fusion as its plain normalization, without the 1 - v inversion the
other three maps receive. -/
theorem ela_clipped_sum_nominal_area (gray : Image) (den : Nat → Nat → ℚ)
    (origR newR : Nat → Nat → ℚ) (blockSize i j : Nat) :
    ((elaMapOf gray.w gray.h origR newR blockSize).val i j
        = regionSum (fun a b => |origR a b - newR a b|) (j * blockSize) (i * blockSize)
            (wBlkOf gray.w blockSize j) (hBlkOf gray.h blockSize i)
          / ((blockSize * blockSize : Nat) : ℚ))
    ∧ compositeOf gray den origR newR blockSize
        = fuse (invertMap (normalizeMap (varMapOf gray blockSize)))
               (invertMap (normalizeMap (gridMapOf gray blockSize)))
               (invertMap (normalizeMap (prnuMapOf gray den blockSize)))
               (normalizeMap (elaMapOf gray.w gray.h origR newR blockSize)) := by
  constructor
  · show elaBlockScore gray.w gray.h origR newR blockSize i j = _
    unfold elaBlockScore regionSum wBlkOf hBlkOf
    rw [guarded_double_sum_eq_clipped gray.w gray.h blockSize
      (fun yy xx => |origR (j * blockSize + xx) (i * blockSize + yy)
        - newR (j * blockSize + xx) (i * blockSize + yy)|) i j]
  · rfl

theorem cellDiffs_eq_specCellDiffs (gray : Image) (x0 y0 : Nat) :
    (if y0 + gridSize > gray.h ∨ x0 + gridSize > gray.w then []
     else (if x0 + gridSize < gray.w then [vBoundaryDiff gray x0 y0] else []) ++
          (if y0 + gridSize < gray.h then [hBoundaryDiff gray x0 y0] else []))
      = specCellDiffs gray x0 y0 := by
  unfold specCellDiffs
  split_ifs <;> simp_all <;> omega

theorem blockBoundaryDiffs_eq_spec (gray : Image) (blockSize i j : Nat) :
    blockBoundaryDiffs gray blockSize i j = specBoundaryDiffs gray blockSize i j := by
  unfold blockBoundaryDiffs specBoundaryDiffs
  congr 1
  funext yOff
  congr 1
  funext xOff
  exact cellDiffs_eq_specCellDiffs gray (j * blockSize + xOff) (i * blockSize + yOff)

/-- C5: every grid-artifact block score equals the spec-side description:
the arithmetic mean, over the 8-pixel sub-cell boundaries fully inside
the image falling within the block, of the mean absolute difference of
the sample lines on the two sides of the boundary, and a block with no
valid boundary scores exactly 0. -/
theorem grid_score_matches_spec (gray : Image) (blockSize i j : Nat) :
    (gridMapOf gray blockSize).val i j = specGridScore gray blockSize i j
    ∧ (specBoundaryDiffs gray blockSize i j = [] →
        (gridMapOf gray blockSize).val i j = 0) := by
  have hmain : (gridMapOf gray blockSize).val i j = specGridScore gray blockSize i j := by
    show gridScore gray blockSize i j = specGridScore gray blockSize i j
    unfold gridScore specGridScore
    rw [blockBoundaryDiffs_eq_spec]
    by_cases hnil : specBoundaryDiffs gray blockSize i j = []
    · rw [if_pos hnil, if_pos]
      rw [hnil]
      rfl
    · rw [if_neg hnil, if_neg]
      simpa [List.length_eq_zero] using hnil
  refine ⟨hmain, fun hnil => ?_⟩
  rw [hmain]
  unfold specGridScore
  rw [if_pos hnil]

/-- Closed witness for the grid-artifact claim: a 4 × 4 image with
blockSize 32 has no sub-cell fully inside the image, so block (0,0)
collects no boundary differences and scores 0. -/
theorem grid_score_matches_spec_witness :
    specBoundaryDiffs (constImage 4 4 (1/2)) 32 0 0 = []
      ∧ (gridMapOf (constImage 4 4 (1/2)) 32).val 0 0 = 0 := by
  have hnil : specBoundaryDiffs (constImage 4 4 (1/2)) 32 0 0 = [] := rfl
  exact ⟨hnil, (grid_score_matches_spec (constImage 4 4 (1/2)) 32 0 0).2 hnil⟩

theorem exampleComposite_flatten :
    exampleComposite.flatten
      = [1/10, 2/10, 3/10, 4/10, 5/10, 6/10, 7/10, 8/10, 9/10, 1] := by
  show [((5 * 0 + 0 + 1 : Nat) : ℚ) / 10, ((5 * 0 + 1 + 1 : Nat) : ℚ) / 10,
        ((5 * 0 + 2 + 1 : Nat) : ℚ) / 10, ((5 * 0 + 3 + 1 : Nat) : ℚ) / 10,
        ((5 * 0 + 4 + 1 : Nat) : ℚ) / 10, ((5 * 1 + 0 + 1 : Nat) : ℚ) / 10,
        ((5 * 1 + 1 + 1 : Nat) : ℚ) / 10, ((5 * 1 + 2 + 1 : Nat) : ℚ) / 10,
        ((5 * 1 + 3 + 1 : Nat) : ℚ) / 10, ((5 * 1 + 4 + 1 : Nat) : ℚ) / 10] = _
  norm_num

theorem exampleComposite_sortAsc :
    sortAsc exampleComposite.flatten
      = [1/10, 2/10, 3/10, 4/10, 5/10, 6/10, 7/10, 8/10, 9/10, 1] := by
  rw [sortAsc, exampleComposite_flatten]
  apply List.eq_of_perm_of_sorted (List.perm_insertionSort _ _)
    (List.sorted_insertionSort _ _)
  norm_num [List.sorted_cons]

theorem exampleComposite_threshold :
    thresholdOf exampleComposite 80 = some (9/10) := by
  show (sortAsc exampleComposite.flatten).get?
      (thrIdx (sortAsc exampleComposite.flatten).length 80) = _
  rw [exampleComposite_sortAsc]
  have hidx : thrIdx 10 80 = 8 := by
    rw [thrIdx, show ((10 : Nat) : ℚ) * 80 / 100 = ((8 : Nat) : ℚ) by norm_num,
      Nat.floor_natCast]
  norm_num [hidx]

/-- C1: the threshold is the element of the ascending-sorted flattened
composite at 0-based nearest-rank index floor(N * thresholdPercent / 100)
(as an Option, none modelling the undefined out-of-range read), a block is
marked suspicious iff its composite value is at least the selected
threshold, and on the ten composite values 0.1 to 1.0 with
thresholdPercent 80 the threshold is 0.9 and exactly the two blocks
holding 0.9 and 1.0 are marked. -/
theorem threshold_nearest_rank (m : ScoreMap) (tp : ℚ)
    (htp0 : 0 ≤ tp) (htp1 : tp ≤ 100) :
    (List.Sorted (fun a b => a ≤ b) (sortAsc m.flatten)
      ∧ (sortAsc m.flatten).Perm m.flatten
      ∧ thresholdOf m tp = (sortAsc m.flatten).get? (thrIdx m.flatten.length tp))
    ∧ (∀ t, thresholdOf m tp = some t →
        ∀ i j, (suspiciousAt m tp i j = true ↔ m.val i j ≥ t))
    ∧ (thresholdOf exampleComposite 80 = some (9/10)
      ∧ maskOf exampleComposite 80
          = [[false, false, false, false, false],
             [false, false, false, true, true]]) := by
  refine ⟨⟨List.sorted_insertionSort _ _, List.perm_insertionSort _ _, ?_⟩,
    ?_, exampleComposite_threshold, ?_⟩
  · show (sortAsc m.flatten).get? (thrIdx (sortAsc m.flatten).length tp) = _
    rw [sortAsc, List.length_insertionSort]
  · intro t ht i j
    unfold suspiciousAt
    rw [ht]
    simp
  · have hsusp : ∀ i j, suspiciousAt exampleComposite 80 i j
        = decide (exampleComposite.val i j ≥ 9/10) := by
      intro i j
      unfold suspiciousAt
      rw [exampleComposite_threshold]
    unfold maskOf
    simp only [hsusp]
    norm_num [List.range_succ, exampleComposite, decide_eq_true_eq, decide_eq_false_iff_not]

/-- Closed witness for the threshold claim, applying it to the worked
example map with thresholdPercent 80. -/
theorem threshold_nearest_rank_witness :
    (0 : ℚ) ≤ 80 ∧ (80 : ℚ) ≤ 100
      ∧ (thresholdOf exampleComposite 80 = some (9/10)
        ∧ maskOf exampleComposite 80
            = [[false, false, false, false, false],
               [false, false, false, true, true]]) :=
  ⟨by norm_num, by norm_num,
    (threshold_nearest_rank exampleComposite 80 (by norm_num) (by norm_num)).2.2⟩

/-- C10: with thresholdPercent 100 the nearest-rank index equals the
length of the sorted sequence, the indexed read falls past the end (none,
modelling the undefined JavaScript value), the comparison against it is
false for every block, and the highlight mask is all-false. -/
theorem threshold_percent_100_all_false (m : ScoreMap) (hne : m.flatten ≠ []) :
    thrIdx (sortAsc m.flatten).length 100 = (sortAsc m.flatten).length
    ∧ thresholdOf m 100 = none
    ∧ (∀ i j, suspiciousAt m 100 i j = false)
    ∧ maskOf m 100 = List.replicate m.rows (List.replicate m.cols false) := by
  have hidx : ∀ n : Nat, thrIdx n 100 = n := by
    intro n
    rw [thrIdx, mul_div_assoc, show (100 : ℚ) / 100 = 1 by norm_num, mul_one,
      Nat.floor_natCast]
  have hthr : thresholdOf m 100 = none := by
    show (sortAsc m.flatten).get? (thrIdx (sortAsc m.flatten).length 100) = none
    rw [hidx]
    exact List.get?_eq_none.mpr (le_refl _)
  have hsusp : ∀ i j, suspiciousAt m 100 i j = false := by
    intro i j
    unfold suspiciousAt
    rw [hthr]
  refine ⟨hidx _, hthr, hsusp, ?_⟩
  unfold maskOf
  rw [show (fun i => (List.range m.cols).map (fun j => suspiciousAt m 100 i j))
      = fun _ : Nat => List.replicate m.cols false from ?_]
  · rw [List.map_const', List.length_range]
  · funext i
    rw [show (fun j => suspiciousAt m 100 i j) = fun _ : Nat => false from ?_]
    · rw [List.map_const', List.length_range]
    · funext j
      exact hsusp i j

/-- Closed witness for the thresholdPercent 100 claim at the worked
example map. -/
theorem threshold_percent_100_all_false_witness :
    exampleComposite.flatten ≠ []
      ∧ thresholdOf exampleComposite 100 = none
      ∧ maskOf exampleComposite 100 = List.replicate 2 (List.replicate 5 false) := by
  have hne : exampleComposite.flatten ≠ [] := by
    rw [exampleComposite_flatten]
    exact List.cons_ne_nil _ _
  have h := threshold_percent_100_all_false exampleComposite hne
  exact ⟨hne, h.2.1, h.2.2.2⟩

theorem eps_pos : (0 : ℚ) < eps := by norm_num [eps]

theorem normalized_val_bounds (mp : ScoreMap) {i j : Nat}
    (hi : i < mp.rows) (hj : j < mp.cols) :
    0 ≤ (normalizeMap mp).val i j ∧ (normalizeMap mp).val i j < 1 := by
  have hmem := val_mem_flatten hi hj
  have hmn : listMin mp.flatten ≤ mp.val i j := listMin_le hmem
  have hmx : mp.val i j ≤ listMax mp.flatten := le_listMax hmem
  have hden : 0 < listMax mp.flatten - listMin mp.flatten + eps := by
    have := eps_pos
    linarith
  show 0 ≤ (mp.val i j - listMin mp.flatten) / (listMax mp.flatten - listMin mp.flatten + eps)
      ∧ (mp.val i j - listMin mp.flatten) / (listMax mp.flatten - listMin mp.flatten + eps) < 1
  constructor
  · apply div_nonneg _ (le_of_lt hden)
    linarith
  · rw [div_lt_one hden]
    have := eps_pos
    linarith

/-- C3: each raw map is min-max normalized as
(v - min) / (max - min + 1e-8); the variance, grid and residual maps are
inverted as 1 - normalized (normalization first), the ELA map is not; the
composite is the unweighted average with fixed weight 1/4 each; and every
composite value lies in [0, 1]. -/
theorem normalize_fuse_composite_bounds (gray : Image) (den origR newR : Nat → Nat → ℚ)
    (blockSize i j : Nat)
    (hi : i < byCount gray.h blockSize) (hj : j < bxCount gray.w blockSize) :
    ((normalizeMap (varMapOf gray blockSize)).val i j
        = ((varMapOf gray blockSize).val i j - listMin (varMapOf gray blockSize).flatten)
          / (listMax (varMapOf gray blockSize).flatten
              - listMin (varMapOf gray blockSize).flatten + eps))
    ∧ (∀ mp : ScoreMap, (invertMap (normalizeMap mp)).val i j
        = 1 - (normalizeMap mp).val i j)
    ∧ ((compositeOf gray den origR newR blockSize).val i j
        = ((invertMap (normalizeMap (varMapOf gray blockSize))).val i j
          + (invertMap (normalizeMap (gridMapOf gray blockSize))).val i j
          + (invertMap (normalizeMap (prnuMapOf gray den blockSize))).val i j
          + (normalizeMap (elaMapOf gray.w gray.h origR newR blockSize)).val i j) / 4)
    ∧ (0 ≤ (compositeOf gray den origR newR blockSize).val i j
      ∧ (compositeOf gray den origR newR blockSize).val i j ≤ 1) := by
  refine ⟨rfl, fun mp => rfl, rfl, ?_⟩
  have hv := normalized_val_bounds (varMapOf gray blockSize) (i := i) (j := j) hi hj
  have hg := normalized_val_bounds (gridMapOf gray blockSize) (i := i) (j := j) hi hj
  have hp := normalized_val_bounds (prnuMapOf gray den blockSize) (i := i) (j := j) hi hj
  have he := normalized_val_bounds (elaMapOf gray.w gray.h origR newR blockSize)
    (i := i) (j := j) hi hj
  show 0 ≤ ((1 - (normalizeMap (varMapOf gray blockSize)).val i j)
        + (1 - (normalizeMap (gridMapOf gray blockSize)).val i j)
        + (1 - (normalizeMap (prnuMapOf gray den blockSize)).val i j)
        + (normalizeMap (elaMapOf gray.w gray.h origR newR blockSize)).val i j) / 4
      ∧ ((1 - (normalizeMap (varMapOf gray blockSize)).val i j)
        + (1 - (normalizeMap (gridMapOf gray blockSize)).val i j)
        + (1 - (normalizeMap (prnuMapOf gray den blockSize)).val i j)
        + (normalizeMap (elaMapOf gray.w gray.h origR newR blockSize)).val i j) / 4 ≤ 1
  constructor
  · apply div_nonneg _ (by norm_num : (0:ℚ) ≤ 4)
    linarith [hv.1, hv.2, hg.1, hg.2, hp.1, hp.2, he.1, he.2]
  · rw [div_le_one (by norm_num : (0:ℚ) < 4)]
    linarith [hv.1, hv.2, hg.1, hg.2, hp.1, hp.2, he.1, he.2]

/-- Closed witness for the normalization and fusion claim on a 1 × 1
uniform image with blockSize 1. -/
theorem normalize_fuse_composite_bounds_witness :
    0 < byCount 1 1 ∧ 0 < bxCount 1 1
      ∧ (0 ≤ (compositeOf (constImage 1 1 0) (fun _ _ => 0) (fun _ _ => 0)
            (fun _ _ => 0) 1).val 0 0
        ∧ (compositeOf (constImage 1 1 0) (fun _ _ => 0) (fun _ _ => 0)
            (fun _ _ => 0) 1).val 0 0 ≤ 1) := by
  have hi : 0 < byCount 1 1 := (lt_byCount_iff (by decide)).mpr (by decide)
  have hj : 0 < bxCount 1 1 := (lt_bxCount_iff (by decide)).mpr (by decide)
  exact ⟨hi, hj,
    (normalize_fuse_composite_bounds (constImage 1 1 0) (fun _ _ => 0) (fun _ _ => 0)
      (fun _ _ => 0) 1 0 0 hi hj).2.2.2⟩

/-- C8: when the preferred non-local-means capability is unavailable the
denoise helper returns the 3 × 3 default-border blur of its input and
emits the warning diagnostic, and the analysis still runs to completion
on the fallback output, producing the same mask as a run handed the
blurred buffer directly. -/
theorem denoise_fallback_nonfatal (cv : Cv) (gray : Image)
    (origR newR : Nat → Nat → ℚ) (blockSize : Nat) (tp : ℚ)
    (hmissing : cv.fastNlMeansDenoising = none) :
    (denoise cv gray.pix).out
        = cv.gaussianBlur gray.pix (3, 3) 0 0 BorderType.borderDefault
    ∧ (denoise cv gray.pix).warnings
        = ["[ForensicsOverlay] fastNlMeansDenoising unavailable, using GaussianBlur"]
    ∧ runMask cv gray origR newR blockSize tp
        = maskOf (compositeOf gray
            (cv.gaussianBlur gray.pix (3, 3) 0 0 BorderType.borderDefault)
            origR newR blockSize) tp := by
  unfold runMask denoise
  rw [hmissing]
  exact ⟨rfl, rfl, rfl⟩

/-- Closed witness for the denoise fallback claim at a concrete backend
missing the preferred capability. -/
theorem denoise_fallback_nonfatal_witness :
    (Cv.mk none (fun g _ _ _ _ => g)).fastNlMeansDenoising = none
      ∧ (denoise (Cv.mk none (fun g _ _ _ _ => g)) (constImage 1 1 0).pix).warnings
          = ["[ForensicsOverlay] fastNlMeansDenoising unavailable, using GaussianBlur"] :=
  ⟨rfl, (denoise_fallback_nonfatal (Cv.mk none (fun g _ _ _ _ => g)) (constImage 1 1 0)
    (fun _ _ => 0) (fun _ _ => 0) 1 80 rfl).2.1⟩

/-- C9 is violated by the code: the component keeps no run or generation
token, and the round-trip callback draws the overlay of its own run and
clears the loading flag unconditionally. In the trace where run 0 starts,
the source is replaced (run 1 becomes current), and then the outstanding
round trip of run 0 resolves, the stale run-0 result is written onto the
canvas of the current run-1 view. -/
theorem stale_roundTrip_result_is_written :
    (overlayRun [OverlayEvent.newSrc 0, OverlayEvent.newSrc 1,
        OverlayEvent.roundTripDone 0]).currentRun = 1
    ∧ (overlayRun [OverlayEvent.newSrc 0, OverlayEvent.newSrc 1,
        OverlayEvent.roundTripDone 0]).canvasRun = some 0
    ∧ (overlayRun [OverlayEvent.newSrc 0, OverlayEvent.newSrc 1,
        OverlayEvent.roundTripDone 0]).loading = false :=
  ⟨rfl, rfl, rfl⟩

theorem hBlk_pos {h bs i : Nat} (hbs : 0 < bs) (hi : i < byCount h bs) :
    0 < hBlkOf h bs i := by
  have := (lt_byCount_iff hbs).mp hi
  unfold hBlkOf
  omega

theorem wBlk_pos {w bs j : Nat} (hbs : 0 < bs) (hj : j < bxCount w bs) :
    0 < wBlkOf w bs j := by
  have := (lt_bxCount_iff hbs).mp hj
  unfold wBlkOf
  omega

theorem regionSum_const (c : ℚ) (x y wB hB : Nat) :
    regionSum (fun _ _ => c) x y wB hB = ((wB * hB : Nat) : ℚ) * c := by
  unfold regionSum
  rw [Finset.sum_congr rfl (fun yy _ => Finset.sum_const c)]
  rw [Finset.sum_const]
  simp only [Finset.card_range, smul_smul, nsmul_eq_mul]
  push_cast
  ring

theorem regionMean_const (c : ℚ) (x y wB hB : Nat)
    (hn : ((wB * hB : Nat) : ℚ) ≠ 0) :
    regionMean (fun _ _ => c) x y wB hB = c := by
  unfold regionMean
  rw [regionSum_const, mul_comm, mul_div_assoc, div_self hn, mul_one]

theorem blockVarStat_const (w h : Nat) (c : ℚ) (blockSize i j : Nat)
    (hw : 0 < wBlkOf w blockSize j) (hh : 0 < hBlkOf h blockSize i) :
    blockVarStat (constImage w h c) blockSize i j = 0 := by
  have hn : (((wBlkOf w blockSize j * hBlkOf h blockSize i : Nat)) : ℚ) ≠ 0 := by
    rw [Nat.cast_ne_zero]
    exact Nat.mul_ne_zero (Nat.pos_iff_ne_zero.mp hw) (Nat.pos_iff_ne_zero.mp hh)
  show regionMean (fun _ _ => c * c) (j * blockSize) (i * blockSize)
        (wBlkOf w blockSize j) (hBlkOf h blockSize i)
      - regionMean (fun _ _ => c) (j * blockSize) (i * blockSize)
          (wBlkOf w blockSize j) (hBlkOf h blockSize i)
        * regionMean (fun _ _ => c) (j * blockSize) (i * blockSize)
          (wBlkOf w blockSize j) (hBlkOf h blockSize i) = 0
  rw [regionMean_const (c * c) _ _ _ _ hn, regionMean_const c _ _ _ _ hn]
  ring

theorem vBoundaryDiff_const (w h : Nat) (c : ℚ) (x0 y0 : Nat) :
    vBoundaryDiff (constImage w h c) x0 y0 = 0 := by
  unfold vBoundaryDiff constImage
  simp

theorem hBoundaryDiff_const (w h : Nat) (c : ℚ) (x0 y0 : Nat) :
    hBoundaryDiff (constImage w h c) x0 y0 = 0 := by
  unfold hBoundaryDiff constImage
  simp

theorem gridScore_const (w h : Nat) (c : ℚ) (blockSize i j : Nat) :
    gridScore (constImage w h c) blockSize i j = 0 := by
  have hall : ∀ q ∈ blockBoundaryDiffs (constImage w h c) blockSize i j, q = 0 := by
    intro q hq
    simp only [blockBoundaryDiffs, List.mem_flatMap] at hq
    obtain ⟨yOff, _, xOff, _, hq⟩ := hq
    have hv := vBoundaryDiff_const w h c (j * blockSize + xOff) (i * blockSize + yOff)
    have hb := hBoundaryDiff_const w h c (j * blockSize + xOff) (i * blockSize + yOff)
    split_ifs at hq <;> simp_all
  unfold gridScore
  by_cases hlen : (blockBoundaryDiffs (constImage w h c) blockSize i j).length = 0
  · rw [if_pos hlen]
  · rw [if_neg hlen, List.sum_eq_zero hall, zero_div]

theorem elaBlockScore_zero (w h : Nat) (origR newR : Nat → Nat → ℚ)
    (hnew : ∀ x y, newR x y = origR x y) (blockSize i j : Nat) :
    elaBlockScore w h origR newR blockSize i j = 0 := by
  unfold elaBlockScore
  rw [Finset.sum_eq_zero, zero_div]
  intro yy _
  apply Finset.sum_eq_zero
  intro xx _
  rw [hnew]
  simp

theorem normalize_zero_map (mp : ScoreMap) (hrows : 0 < mp.rows) (hcols : 0 < mp.cols)
    (hzero : ∀ i j, i < mp.rows → j < mp.cols → mp.val i j = 0) :
    ∀ i j, i < mp.rows → j < mp.cols → (normalizeMap mp).val i j = 0 := by
  have hflat : ∀ x ∈ mp.flatten, x = 0 := by
    intro x hx
    obtain ⟨i, hi, j, hj, rfl⟩ := mem_flatten_iff.mp hx
    exact hzero i j hi hj
  have hne : mp.flatten ≠ [] :=
    List.ne_nil_of_mem (val_mem_flatten hrows hcols)
  have hmn : listMin mp.flatten = 0 := listMin_const hne hflat
  have hmx : listMax mp.flatten = 0 := listMax_const hne hflat
  intro i j hi hj
  show (mp.val i j - listMin mp.flatten) / (listMax mp.flatten - listMin mp.flatten + eps) = 0
  rw [hmn, hmx, hzero i j hi hj]
  simp

/-- C4: on a uniform constant-intensity image (with the denoiser and the
recompression round trip behaving as constant-preserving external
capabilities), the variance, grid-artifact, residual-noise and ELA raw
maps are all-zero, normalization maps every value to 0 with a nonzero
epsilon-guarded denominator, inversion yields 1, the composite map is the
constant 3/4, the selected threshold equals that constant and every block
is marked suspicious. -/
theorem uniform_image_all_suspicious (w h blockSize : Nat) (c : ℚ)
    (den origR newR : Nat → Nat → ℚ) (tp : ℚ)
    (hw : 0 < w) (hh : 0 < h) (hbs : 0 < blockSize)
    (hden : ∀ x y, den x y = c)
    (hnew : ∀ x y, newR x y = origR x y)
    (htp0 : 0 ≤ tp) (htp1 : tp < 100) :
    (∀ i j, i < byCount h blockSize → j < bxCount w blockSize →
      ((varMapOf (constImage w h c) blockSize).val i j = 0
      ∧ (gridMapOf (constImage w h c) blockSize).val i j = 0
      ∧ (prnuMapOf (constImage w h c) den blockSize).val i j = 0
      ∧ (elaMapOf w h origR newR blockSize).val i j = 0
      ∧ (normalizeMap (varMapOf (constImage w h c) blockSize)).val i j = 0
      ∧ (invertMap (normalizeMap (varMapOf (constImage w h c) blockSize))).val i j = 1
      ∧ (compositeOf (constImage w h c) den origR newR blockSize).val i j = 3/4))
    ∧ listMax (varMapOf (constImage w h c) blockSize).flatten
        - listMin (varMapOf (constImage w h c) blockSize).flatten + eps ≠ 0
    ∧ thresholdOf (compositeOf (constImage w h c) den origR newR blockSize) tp = some (3/4)
    ∧ (∀ i j, i < byCount h blockSize → j < bxCount w blockSize →
        suspiciousAt (compositeOf (constImage w h c) den origR newR blockSize) tp i j
          = true) := by
  have hrows : 0 < byCount h blockSize := (lt_byCount_iff hbs).mpr (by simpa using hh)
  have hcols : 0 < bxCount w blockSize := (lt_bxCount_iff hbs).mpr (by simpa using hw)
  have hvar0 : ∀ i j, i < byCount h blockSize → j < bxCount w blockSize →
      (varMapOf (constImage w h c) blockSize).val i j = 0 := by
    intro i j hi hj
    exact blockVarStat_const w h c blockSize i j (wBlk_pos hbs hj) (hBlk_pos hbs hi)
  have hgrid0 : ∀ i j, (gridMapOf (constImage w h c) blockSize).val i j = 0 :=
    fun i j => gridScore_const w h c blockSize i j
  have hres : residualImage (constImage w h c) den = constImage w h 0 := by
    unfold residualImage constImage
    congr 1
    funext x y
    show c - den x y = 0
    rw [hden]
    ring
  have hprnu0 : ∀ i j, i < byCount h blockSize → j < bxCount w blockSize →
      (prnuMapOf (constImage w h c) den blockSize).val i j = 0 := by
    intro i j hi hj
    show blockVarStat (residualImage (constImage w h c) den) blockSize i j = 0
    rw [hres]
    exact blockVarStat_const w h 0 blockSize i j (wBlk_pos hbs hj) (hBlk_pos hbs hi)
  have hela0 : ∀ i j, (elaMapOf w h origR newR blockSize).val i j = 0 :=
    fun i j => elaBlockScore_zero w h origR newR hnew blockSize i j
  have hnv : ∀ i j, i < byCount h blockSize → j < bxCount w blockSize →
      (normalizeMap (varMapOf (constImage w h c) blockSize)).val i j = 0 :=
    normalize_zero_map (varMapOf (constImage w h c) blockSize) hrows hcols hvar0
  have hng : ∀ i j, i < byCount h blockSize → j < bxCount w blockSize →
      (normalizeMap (gridMapOf (constImage w h c) blockSize)).val i j = 0 :=
    normalize_zero_map (gridMapOf (constImage w h c) blockSize) hrows hcols
      (fun i j _ _ => hgrid0 i j)
  have hnp : ∀ i j, i < byCount h blockSize → j < bxCount w blockSize →
      (normalizeMap (prnuMapOf (constImage w h c) den blockSize)).val i j = 0 :=
    normalize_zero_map (prnuMapOf (constImage w h c) den blockSize) hrows hcols hprnu0
  have hnea : ∀ i j, i < byCount h blockSize → j < bxCount w blockSize →
      (normalizeMap (elaMapOf w h origR newR blockSize)).val i j = 0 :=
    normalize_zero_map (elaMapOf w h origR newR blockSize) hrows hcols
      (fun i j _ _ => hela0 i j)
  have hcomp : ∀ i j, i < byCount h blockSize → j < bxCount w blockSize →
      (compositeOf (constImage w h c) den origR newR blockSize).val i j = 3/4 := by
    intro i j hi hj
    show ((1 - (normalizeMap (varMapOf (constImage w h c) blockSize)).val i j)
        + (1 - (normalizeMap (gridMapOf (constImage w h c) blockSize)).val i j)
        + (1 - (normalizeMap (prnuMapOf (constImage w h c) den blockSize)).val i j)
        + (normalizeMap (elaMapOf w h origR newR blockSize)).val i j) / 4 = 3/4
    rw [hnv i j hi hj, hng i j hi hj, hnp i j hi hj, hnea i j hi hj]
    norm_num
  have hflatvar : ∀ x ∈ (varMapOf (constImage w h c) blockSize).flatten, x = 0 := by
    intro x hx
    obtain ⟨i, hi, j, hj, rfl⟩ := mem_flatten_iff.mp hx
    exact hvar0 i j hi hj
  have hvarne : (varMapOf (constImage w h c) blockSize).flatten ≠ [] :=
    List.ne_nil_of_mem (val_mem_flatten hrows hcols)
  have hepsden : listMax (varMapOf (constImage w h c) blockSize).flatten
      - listMin (varMapOf (constImage w h c) blockSize).flatten + eps ≠ 0 := by
    rw [listMin_const hvarne hflatvar, listMax_const hvarne hflatvar]
    simpa using ne_of_gt eps_pos
  have hcompflat : ∀ x ∈ (compositeOf (constImage w h c) den origR newR blockSize).flatten,
      x = 3/4 := by
    intro x hx
    obtain ⟨i, hi, j, hj, rfl⟩ := mem_flatten_iff.mp hx
    exact hcomp i j hi hj
  have hcompne : (compositeOf (constImage w h c) den origR newR blockSize).flatten ≠ [] :=
    List.ne_nil_of_mem (val_mem_flatten hrows hcols)
  have hNpos :
      0 < (sortAsc (compositeOf (constImage w h c) den origR newR blockSize).flatten).length := by
    rw [sortAsc, List.length_insertionSort]
    exact List.length_pos.mpr hcompne
  have hidxlt : ∀ n : Nat, 0 < n → thrIdx n tp < n := by
    intro n hn
    have hn0 : (0 : ℚ) < (n : ℚ) := by exact_mod_cast hn
    have hq : ((n : ℚ) * tp / 100) < (n : ℚ) := by
      rw [div_lt_iff (by norm_num : (0:ℚ) < 100)]
      exact mul_lt_mul_of_pos_left htp1 hn0
    have hnn : (0 : ℚ) ≤ (n : ℚ) * tp / 100 :=
      div_nonneg (mul_nonneg (Nat.cast_nonneg n) htp0) (by norm_num)
    exact (Nat.floor_lt hnn).mpr hq
  obtain ⟨t, ht⟩ : ∃ t,
      (sortAsc (compositeOf (constImage w h c) den origR newR blockSize).flatten).get?
        (thrIdx (sortAsc
          (compositeOf (constImage w h c) den origR newR blockSize).flatten).length tp)
        = some t :=
    ⟨_, List.get?_eq_get (hidxlt _ hNpos)⟩
  have hthr : thresholdOf (compositeOf (constImage w h c) den origR newR blockSize) tp
      = some t := ht
  have hmem2 : t ∈ (compositeOf (constImage w h c) den origR newR blockSize).flatten :=
    (List.perm_insertionSort _ _).mem_iff.mp (List.get?_mem ht)
  have ht34 : t = 3/4 := hcompflat t hmem2
  subst ht34
  have hsusp : ∀ i j, i < byCount h blockSize → j < bxCount w blockSize →
      suspiciousAt (compositeOf (constImage w h c) den origR newR blockSize) tp i j
        = true := by
    intro i j hi hj
    unfold suspiciousAt
    rw [hthr]
    show decide ((compositeOf (constImage w h c) den origR newR blockSize).val i j ≥ 3/4)
        = true
    rw [hcomp i j hi hj]
    exact decide_eq_true (le_refl _)
  refine ⟨fun i j hi hj => ⟨hvar0 i j hi hj, hgrid0 i j, hprnu0 i j hi hj, hela0 i j,
    hnv i j hi hj, ?_, hcomp i j hi hj⟩, hepsden, hthr, hsusp⟩
  show 1 - (normalizeMap (varMapOf (constImage w h c) blockSize)).val i j = 1
  rw [hnv i j hi hj]
  norm_num

/-- Closed witness for the uniform-image claim at a 1 × 1 image of
intensity 5 with blockSize 1 and the default thresholdPercent 80. -/
theorem uniform_image_all_suspicious_witness :
    (0 : ℚ) ≤ 80 ∧ (80 : ℚ) < 100
      ∧ thresholdOf (compositeOf (constImage 1 1 5) (fun _ _ => 5) (fun _ _ => 2)
          (fun _ _ => 2) 1) 80 = some (3/4)
      ∧ suspiciousAt (compositeOf (constImage 1 1 5) (fun _ _ => 5) (fun _ _ => 2)
          (fun _ _ => 2) 1) 80 0 0 = true := by
  have h := uniform_image_all_suspicious 1 1 1 5 (fun _ _ => 5) (fun _ _ => 2)
    (fun _ _ => 2) 80 (by decide) (by decide) (by decide) (fun _ _ => rfl)
    (fun _ _ => rfl) (by norm_num) (by norm_num)
  refine ⟨by norm_num, by norm_num, h.2.2.1, ?_⟩
  exact h.2.2.2 0 0 ((lt_byCount_iff (by decide)).mpr (by decide))
    ((lt_bxCount_iff (by decide)).mpr (by decide))

end DeepDetect
